import Mathlib

/-!
Verification of the EGNN model-definition module (`egnn.py`).

The module defines three components:
* `RFF` — random Fourier features: a fixed random projection followed by
  sine/cosine encoding;
* `EGNNLayer` — one round of graph message passing (message → scatter-sum
  aggregation by destination node → update, with optional node masking);
* `EGNN_Full` — input embedding, a stack of `depth` layers with optional
  residual connections, graph pooling, and a 2-layer prediction head.

Shallow embedding conventions:
* scalars are `ℚ` (the tensor substrate's floating-point reals);
* a tensor of shape `[n, d]` is a `List (List ℚ)` with `n` rows;
* external numeric primitives with no rational closed form (`sqrt`, `sin`,
  `cos`, the random `randn` draw, the constant `1/√2`) are passed in as
  function/value parameters — the claims under verification do not depend
  on their values;
* the two `nn.Sequential` sub-networks of a layer (`mlp_msg`, `mlp_upd`)
  are parameter-carrying feed-forward networks whose internals (linear
  weights, normalization, activation) the claims never inspect; they are
  modelled as the functions those networks denote, supplied at
  construction;
* the PyTorch-Geometric `MessagePassing.propagate` scheme (substrate code)
  is modelled per its documented semantics with the default
  `source_to_target` flow: for edge `(row, col) = (edge_index[0][k],
  edge_index[1][k])` the source is `row` and the destination (aggregation
  target) is `col`; sum aggregation; destinations with no incoming edge
  aggregate to the zero vector;
* Python object mutation (`self.mask = mask` inside `EGNNLayer.forward`)
  is modelled by explicit state passing: `forward` returns the output
  together with the post-call layer state;
* fallible construction — Python `dict` lookups raising `KeyError`, and
  the `TypeError` raised by `torch.randn(...) * sigma` when `RFF_dim` is
  supplied without `RFF_sigma` (`Tensor * None`) — is modelled with
  `Option`.
-/

/-- Dot product of two rational vectors (`torch` inner product on a row). -/
def dot (a b : List ℚ) : ℚ := (List.zipWith (· * ·) a b).sum

/-- Model of `nn.Linear` applied to a vector: weight matrix `W : [out, in]`, bias
`b : [out]`, result `W·x + b` (one entry per weight row). -/
def linear (W : List (List ℚ)) (b : List ℚ) (x : List ℚ) : List ℚ :=
  List.zipWith (fun r bi => dot r x + bi) W b

/-- Elementwise sum of two rows (`torch` broadcast `+` on equal shapes). -/
def vadd (a b : List ℚ) : List ℚ := List.zipWith (· + ·) a b

/-- Elementwise sum of two `[n, d]` tensors (`h + h_update`). -/
def matAdd (a b : List (List ℚ)) : List (List ℚ) := List.zipWith vadd a b

/-- Elementwise difference of two rows (`pos[row] - pos[col]`). -/
def vsub (a b : List ℚ) : List ℚ := List.zipWith (· - ·) a b

/-- The all-zeros vector of a given width. -/
def zeros (n : ℕ) : List ℚ := List.replicate n 0

/-- Squared Euclidean norm of a row (sum of squares). -/
def sqnorm (v : List ℚ) : ℚ := (v.map (fun q => q * q)).sum

/-- Model of `torch.norm(v)`: the square root of the sum of squares. The substrate's
`sqrt` is passed in as a parameter. -/
def euclid (sqrtF : ℚ → ℚ) (v : List ℚ) : ℚ := sqrtF (sqnorm v)

/-- Elementwise ReLU on a row (`torch.nn.ReLU`). -/
def reluVec (v : List ℚ) : List ℚ := v.map (fun q => max 0 q)

/-- Model of `F.linear(x, B)` on a single input row: `x · Bᵗ`, one output entry per
row of `B`. -/
def matvec (B : List (List ℚ)) (x : List ℚ) : List ℚ := B.map (fun r => dot r x)

/-- Rowwise `torch.where(mask.unsqueeze(-1), u, x)`: select row `u i` where
the mask is true and row `x i` where it is false. -/
def maskWhere : List Bool → List (List ℚ) → List (List ℚ) → List (List ℚ)
  | b :: bs, u :: us, x :: xs => (if b then u else x) :: maskWhere bs us xs
  | _, _, _ => []

/-- A rectangular matrix with entry `f i j` at row `i`, column `j`. -/
def mkMatrix (r c : ℕ) (f : ℕ → ℕ → ℚ) : List (List ℚ) :=
  (List.range r).map (fun i => (List.range c).map (f i))

/-- A vector with entry `f i` at position `i`. -/
def mkVec (n : ℕ) (f : ℕ → ℚ) : List ℚ := (List.range n).map f

/-- The `RFF` module's state: configuration plus the frozen random
projection buffer `B` of shape `[out_features/2 + compensation, in_features]`. -/
structure RFFmod where
  in_features : ℕ
  out_features : ℕ
  sigma : ℚ
  compensation : ℕ
  B : List (List ℚ)

/-- Model of `RFF.__init__`: there `compensation = 1` iff `out_features` is odd; the
buffer `B` is `randn(out_features/2 + compensation, in_features) * sigma`
scaled by `1/√2`. The random draw `randn` and the substrate's floating
constant `1/√2` are parameters. -/
def RFFmod.make (inF outF : ℕ) (sigma : ℚ) (randn : ℕ → ℕ → ℚ)
    (invSqrt2 : ℚ) : RFFmod :=
  let comp : ℕ := if outF % 2 ≠ 0 then 1 else 0
  { in_features := inF
    out_features := outF
    sigma := sigma
    compensation := comp
    B := mkMatrix (outF / 2 + comp) inF (fun i j => randn i j * sigma * invSqrt2) }

/-- Model of `RFF.forward` on one input row: `y = x·Bᵗ`, concatenate `sin(y)` and
`cos(y)`, and drop the last column when `compensation` is set. The
substrate's `sin` and `cos` are parameters. -/
def RFFmod.forward (r : RFFmod) (sinF cosF : ℚ → ℚ) (x : List ℚ) : List ℚ :=
  let y := matvec r.B x
  let out := y.map sinF ++ y.map cosF
  if r.compensation ≠ 0 then out.dropLast else out

/-- The activation objects the layer's lookup table can produce
(`nn.ReLU`, `nn.SiLU`). -/
inductive ActKind where
  | relu
  | swish
deriving DecidableEq, Repr

/-- The normalization constructors the layer's lookup table can produce
(`nn.LayerNorm`, `nn.BatchNorm1d`, `nn.Identity`). -/
inductive NormKind where
  | layer
  | batch
  | none
deriving DecidableEq, Repr

/-- The pooling functions the model's lookup table can produce
(`global_mean_pool`, `global_add_pool`). -/
inductive PoolKind where
  | mean
  | add
deriving DecidableEq, Repr

/-- The dict `{"swish": nn.SiLU(), "relu": nn.ReLU()}[activation]`:
`none` models the `KeyError` on an unknown name. -/
def activationOf (s : String) : Option ActKind :=
  if s = "swish" then some ActKind.swish
  else if s = "relu" then some ActKind.relu
  else none

/-- The dict `{"layer": LayerNorm, "batch": BatchNorm1d, "none": Identity}[norm]`:
`none` models the `KeyError` on an unknown name. -/
def normOf (s : String) : Option NormKind :=
  if s = "layer" then some NormKind.layer
  else if s = "batch" then some NormKind.batch
  else if s = "none" then some NormKind.none
  else none

/-- The dict `{"mean": global_mean_pool, "add": global_add_pool}[pool]`:
`none` models the `KeyError` on an unknown name. -/
def poolOf (s : String) : Option PoolKind :=
  if s = "mean" then some PoolKind.mean
  else if s = "add" then some PoolKind.add
  else none

/-- State of an `EGNNLayer`. Here `mlp_msg` and `mlp_upd` are the functions denoted by
the two constructed `nn.Sequential` networks (their linear weights, norms
and activations are substrate-owned data the claims never inspect);
`rff` is the optional `RFF` sub-module; `mask` is the stored mask attribute,
written both at construction and by `forward`. -/
structure EGNNLayer where
  emb_dim : ℕ
  act : ActKind
  nrm : NormKind
  aggr : String
  mlp_msg : List ℚ → List ℚ
  mlp_upd : List ℚ → List ℚ
  RFF_dim : Option ℕ
  RFF_sigma : Option ℚ
  rff : Option RFFmod
  sinF : ℚ → ℚ
  cosF : ℚ → ℚ
  mask : Option (List Bool)

/-- Model of the `RFF(inF, outF, sigma)` construction with a
possibly-absent sigma: when the sigma argument is `None`, `RFF.__init__`
raises a `TypeError` at `B = torch.randn(...) * sigma` (`Tensor * None`),
so the construction fails; otherwise it is `RFFmod.make`. -/
def RFFmod.tryMake (inF outF : ℕ) (sigma : Option ℚ) (randn : ℕ → ℕ → ℚ)
    (invSqrt2 : ℚ) : Option RFFmod :=
  match sigma with
  | some sg => some (RFFmod.make inF outF sg randn invSqrt2)
  | Option.none => Option.none

/-- Model of `EGNNLayer.__init__`: look up the activation and norm names (a failed
lookup raises `KeyError`, modelled by `none`), store the configuration,
build the two sub-networks (passed in as the functions they denote) and,
when `RFF_dim` is set, the `RFF(1, RFF_dim, RFF_sigma)` sub-module —
which itself fails when `RFF_sigma` is absent (`randn * None` raises
`TypeError`). -/
def EGNNLayer.make (emb_dim : ℕ) (activation norm aggr : String)
    (RFF_dim : Option ℕ) (RFF_sigma : Option ℚ) (mask : Option (List Bool))
    (msgNet updNet : List ℚ → List ℚ) (randn : ℕ → ℕ → ℚ)
    (sinF cosF : ℚ → ℚ) (invSqrt2 : ℚ) : Option EGNNLayer :=
  match activationOf activation, normOf norm with
  | some a, some n =>
    match RFF_dim with
    | Option.none =>
        some { emb_dim := emb_dim
               act := a
               nrm := n
               aggr := aggr
               mlp_msg := msgNet
               mlp_upd := updNet
               RFF_dim := Option.none
               RFF_sigma := RFF_sigma
               rff := Option.none
               sinF := sinF
               cosF := cosF
               mask := mask }
    | some d =>
      match RFFmod.tryMake 1 d RFF_sigma randn invSqrt2 with
      | some r =>
          some { emb_dim := emb_dim
                 act := a
                 nrm := n
                 aggr := aggr
                 mlp_msg := msgNet
                 mlp_upd := updNet
                 RFF_dim := some d
                 RFF_sigma := RFF_sigma
                 rff := some r
                 sinF := sinF
                 cosF := cosF
                 mask := mask }
      | Option.none => Option.none
  | _, _ => Option.none

/-- The distance feature used in a message: the raw distance row, or its
`RFF` encoding when `RFF_dim` is set (`EGNNLayer.message`, first lines). -/
def EGNNLayer.distEnc (L : EGNNLayer) (d : List ℚ) : List ℚ :=
  match L.RFF_dim, L.rff with
  | some _, some r => r.forward L.sinF L.cosF d
  | _, _ => d

/-- Model of `EGNNLayer.message` on one edge: `mlp_msg(cat(h_i, h_j, distances))`
where `h_i` is the destination embedding and `h_j` the source embedding. -/
def EGNNLayer.messageRow (L : EGNNLayer) (hi hj d : List ℚ) : List ℚ :=
  L.mlp_msg (hi ++ hj ++ L.distEnc d)

/-- The per-edge message tensor: edge `k = (row k, col k)` has source
`row k` (= `edge_index[0][k]`) and destination `col k` (= `edge_index[1][k]`,
PyG's default `source_to_target` flow), so the message uses
`h_i = h[col k]` and `h_j = h[row k]` with the `k`-th distance row. -/
def EGNNLayer.messages (L : EGNNLayer) (h : List (List ℚ))
    (edges : List (ℕ × ℕ)) (dists : List (List ℚ)) : List (List ℚ) :=
  (edges.zip dists).map
    (fun p => L.messageRow (h.getD p.1.2 []) (h.getD p.1.1 []) p.2)

/-- PyG's scatter aggregation with the additive operator: destination node
`i` receives the sum of the messages of its incoming edges (edges whose
`col` is `i`), and the zero vector when it has none. -/
def aggregateByDest (numNodes emb_dim : ℕ) (edges : List (ℕ × ℕ))
    (msgs : List (List ℚ)) : List (List ℚ) :=
  (List.range numNodes).map (fun i =>
    (((edges.zip msgs).filter (fun p => p.1.2 == i)).map (fun p => p.2)).foldl
      vadd (zeros emb_dim))

/-- The aggregated message tensor of a layer call: one row per node of `h`. -/
def EGNNLayer.aggregated (L : EGNNLayer) (h : List (List ℚ))
    (edges : List (ℕ × ℕ)) (dists : List (List ℚ)) : List (List ℚ) :=
  aggregateByDest h.length L.emb_dim edges (L.messages h edges dists)

/-- Model of `EGNNLayer.update`: `upd_out = mlp_upd(cat(h, aggr_out))` rowwise; when
the stored mask is set, `torch.where(mask.unsqueeze(-1), upd_out, h)`
keeps the original rows of masked-off nodes. -/
def EGNNLayer.updateTensors (L : EGNNLayer) (aggrOut h : List (List ℚ)) :
    List (List ℚ) :=
  let upd := List.zipWith (fun hi a => L.mlp_upd (hi ++ a)) h aggrOut
  match L.mask with
  | some m => maskWhere m upd h
  | none => upd

/-- Model of `MessagePassing.propagate`: compute per-edge messages, aggregate them by
destination, and call `update` with the aggregated tensor and `h`. -/
def EGNNLayer.propagate (L : EGNNLayer) (h : List (List ℚ))
    (edges : List (ℕ × ℕ)) (dists : List (List ℚ)) : List (List ℚ) :=
  L.updateTensors (L.aggregated h edges dists) h

/-- Model of `EGNNLayer.forward`: assign `self.mask = mask` (the per-call argument,
whatever it is), then propagate. The mutation of the Python object is
modelled by returning the post-call layer state alongside the output. -/
def EGNNLayer.forward (L : EGNNLayer) (h : List (List ℚ))
    (edges : List (ℕ × ℕ)) (dists : List (List ℚ))
    (mask : Option (List Bool)) : List (List ℚ) × EGNNLayer :=
  let L2 := { L with mask := mask }
  (L2.propagate h edges dists, L2)

/-- The graph batch consumed by `EGNN_Full.forward`: node features `x`,
3-D positions `pos`, the directed edge list (`row k`, `col k`) pairs,
per-node graph ids `batch`, and the optional per-node mask (`none` models
a batch object without a `mask` attribute). -/
structure GraphBatch where
  x : List (List ℚ)
  pos : List (List ℚ)
  edgeIndex : List (ℕ × ℕ)
  batch : List ℕ
  mask : Option (List Bool)

/-- Model of `torch.norm(pos[row] - pos[col], dim=-1).unsqueeze(1)`: the per-edge
distance column, one singleton row `[‖pos[row k] - pos[col k]‖]` per edge,
computed once in `EGNN_Full.forward` before the layer loop. -/
def computeDistances (sqrtF : ℚ → ℚ) (pos : List (List ℚ))
    (edges : List (ℕ × ℕ)) : List (List ℚ) :=
  edges.map (fun e => [euclid sqrtF (vsub (pos.getD e.1 []) (pos.getD e.2 []))])

/-- One iteration of the layer loop:
`h_update = conv(h, edge_index, distances, mask)`, then
`h = h + h_update` in residual mode and `h = h_update` otherwise. -/
def layerStep (residual : Bool) (L : EGNNLayer) (h : List (List ℚ))
    (edges : List (ℕ × ℕ)) (dists : List (List ℚ))
    (mask : Option (List Bool)) : List (List ℚ) :=
  let upd := (L.forward h edges dists mask).1
  if residual then matAdd h upd else upd

/-- The `for conv in self.convs` loop: every iteration receives the same
`edge_index`, the same precomputed `distances` tensor and the same batch
mask. -/
def runLayers (residual : Bool) (convs : List EGNNLayer)
    (h : List (List ℚ)) (edges : List (ℕ × ℕ)) (dists : List (List ℚ))
    (mask : Option (List Bool)) : List (List ℚ) :=
  convs.foldl (fun hh L => layerStep residual L hh edges dists mask) h

/-- Number of graph slots PyG's global pooling allocates:
`int(batch.max()) + 1`. -/
def numGraphsOf (batch : List ℕ) : ℕ := batch.foldl Nat.max 0 + 1

/-- The rows of `h` belonging to graph `g` (in order). -/
def graphRows (g : ℕ) (h : List (List ℚ)) (batch : List ℕ) :
    List (List ℚ) :=
  ((batch.zip h).filter (fun p => p.1 == g)).map (fun p => p.2)

/-- Sum of a list of rows of width `dim`, starting from the zero vector. -/
def sumRows (dim : ℕ) (rows : List (List ℚ)) : List ℚ :=
  rows.foldl vadd (zeros dim)

/-- Model of `global_add_pool` and `global_mean_pool`: per graph id, sum (resp.
average) the rows of `h` assigned to it by `batch`. -/
def poolGraphs (pk : PoolKind) (h : List (List ℚ)) (batch : List ℕ) :
    List (List ℚ) :=
  let dim := (h.headD []).length
  (List.range (numGraphsOf batch)).map (fun g =>
    let rows := graphRows g h batch
    match pk with
    | PoolKind.add => sumRows dim rows
    | PoolKind.mean => (sumRows dim rows).map (fun q => q / (rows.length : ℚ)))

/-- State of an `EGNN_Full` model: configuration, the `emb_in` linear layer's weights,
the stack of `EGNNLayer`s, the resolved pooling function, and the
prediction head's two linear layers. -/
structure EGNN_Full where
  depth : ℕ
  hidden_features : ℕ
  node_features : ℕ
  out_features : ℕ
  embInW : List (List ℚ)
  embInB : List ℚ
  convs : List EGNNLayer
  pool : PoolKind
  predW1 : List (List ℚ)
  predB1 : List ℚ
  predW2 : List (List ℚ)
  predB2 : List ℚ
  residual : Bool
  mask : Option (List Bool)

/-- The substrate-drawn random initialization of the model's parameter
tensors and sub-networks, supplied to construction: entries of the
`emb_in` and prediction-head linear layers, and the functions denoted by
each layer's two `nn.Sequential` networks. -/
structure EGNNInit where
  embW : ℕ → ℕ → ℚ
  embB : ℕ → ℚ
  predW1e : ℕ → ℕ → ℚ
  predB1e : ℕ → ℚ
  predW2e : ℕ → ℕ → ℚ
  predB2e : ℕ → ℚ
  msgNet : ℕ → List ℚ → List ℚ
  updNet : ℕ → List ℚ → List ℚ
  rffDraw : ℕ → ℕ → ℕ → ℚ

/-- Sequence a list of optional values: all-or-nothing, mirroring a Python
loop that raises on the first failed construction. -/
def seqOption {β : Type} : List (Option β) → Option (List β)
  | [] => some []
  | Option.none :: _ => Option.none
  | some b :: os => (seqOption os).map (fun bs => b :: bs)

/-- Model of `EGNN_Full.__init__`: build `emb_in = Linear(node_features,
hidden_features)`, one `EGNNLayer(hidden_features, activation, norm, aggr,
RFF_dim, RFF_sigma, mask)` per `depth` (any layer's failed lookup fails
construction), resolve the pool name (failed lookup fails construction),
and build the head `Linear(hidden, hidden) → ReLU → Linear(hidden, out)`. -/
def EGNN_Full.make (depth hidden node out : ℕ)
    (activation norm aggr pool : String) (residual : Bool)
    (RFF_dim : Option ℕ) (RFF_sigma : Option ℚ) (mask : Option (List Bool))
    (init : EGNNInit) (sinF cosF : ℚ → ℚ) (invSqrt2 : ℚ) :
    Option EGNN_Full :=
  match seqOption ((List.range depth).map
      (fun k => EGNNLayer.make hidden activation norm aggr RFF_dim RFF_sigma
        mask (init.msgNet k) (init.updNet k) (init.rffDraw k) sinF cosF
        invSqrt2)),
    poolOf pool with
  | some convs, some pk =>
      some { depth := depth
             hidden_features := hidden
             node_features := node
             out_features := out
             embInW := mkMatrix hidden node init.embW
             embInB := mkVec hidden init.embB
             convs := convs
             pool := pk
             predW1 := mkMatrix hidden hidden init.predW1e
             predB1 := mkVec hidden init.predB1e
             predW2 := mkMatrix out hidden init.predW2e
             predB2 := mkVec out init.predB2e
             residual := residual
             mask := mask }
  | _, _ => Option.none

/-- The prediction head on one pooled row:
`Linear(hidden, hidden) → ReLU → Linear(hidden, out)`. -/
def EGNN_Full.predHead (m : EGNN_Full) (v : List ℚ) : List ℚ :=
  linear m.predW2 m.predB2 (reluVec (linear m.predW1 m.predB1 v))

/-- The node embeddings after the layer loop: `h = emb_in(batch.x)`, the
distances computed once from `batch.pos`, then the `depth` layer steps,
each receiving `batch.mask` (or `none` when the batch carries no mask). -/
def EGNN_Full.hidden (m : EGNN_Full) (sqrtF : ℚ → ℚ) (b : GraphBatch) :
    List (List ℚ) :=
  runLayers m.residual m.convs (b.x.map (linear m.embInW m.embInB))
    b.edgeIndex (computeDistances sqrtF b.pos b.edgeIndex) b.mask

/-- Model of `EGNN_Full.forward`: embed, run the layer loop, pool by `batch.batch`,
apply the prediction head to each pooled row. -/
def EGNN_Full.forward (m : EGNN_Full) (sqrtF : ℚ → ℚ) (b : GraphBatch) :
    List (List ℚ) :=
  (poolGraphs m.pool (m.hidden sqrtF b) b.batch).map m.predHead

/-- The layer loop with the Python objects' state threaded through: each
iteration runs `EGNNLayer.forward` (which reassigns the layer's stored
mask) and the post-call layer states are collected in order, alongside the
final embeddings. -/
def runLayersSt (residual : Bool) (edges : List (ℕ × ℕ))
    (dists : List (List ℚ)) (mask : Option (List Bool)) :
    List EGNNLayer → List (List ℚ) → List (List ℚ) × List EGNNLayer
  | [], h => (h, [])
  | L :: rest, h =>
    let p := L.forward h edges dists mask
    let h2 := if residual then matAdd h p.1 else p.1
    let q := runLayersSt residual edges dists mask rest h2
    (q.1, p.2 :: q.2)

/-- Model of `EGNN_Full.forward` with object state made explicit: returns
the prediction together with the post-call model state (the model whose
layer objects carry their post-call stored masks). -/
def EGNN_Full.forwardSt (m : EGNN_Full) (sqrtF : ℚ → ℚ) (b : GraphBatch) :
    List (List ℚ) × EGNN_Full :=
  ((poolGraphs m.pool
      (runLayersSt m.residual b.edgeIndex
        (computeDistances sqrtF b.pos b.edgeIndex) b.mask m.convs
        (b.x.map (linear m.embInW m.embInB))).1 b.batch).map m.predHead,
    { m with
        convs := (runLayersSt m.residual b.edgeIndex
          (computeDistances sqrtF b.pos b.edgeIndex) b.mask m.convs
          (b.x.map (linear m.embInW m.embInB))).2 })

/-! ### Helper lemmas -/

theorem maskWhere_length (m : List Bool) (u x : List (List ℚ)) :
    (maskWhere m u x).length = min m.length (min u.length x.length) := by
  induction m generalizing u x with
  | nil => simp [maskWhere]
  | cons b bs ih =>
    cases u with
    | nil => simp [maskWhere]
    | cons uu us =>
      cases x with
      | nil => simp [maskWhere]
      | cons xx xs =>
        simp only [maskWhere, List.length_cons, ih]
        omega

theorem maskWhere_getD_false (m : List Bool) (u x : List (List ℚ)) (i : ℕ)
    (him : i < m.length) (hiu : i < u.length) (hix : i < x.length)
    (hm : m.getD i true = false) :
    (maskWhere m u x).getD i [] = x.getD i [] := by
  induction m generalizing u x i with
  | nil => simp at him
  | cons b bs ih =>
    cases u with
    | nil => simp at hiu
    | cons uu us =>
      cases x with
      | nil => simp at hix
      | cons xx xs =>
        cases i with
        | zero =>
          simp only [List.getD_cons_zero] at hm
          simp [maskWhere, hm]
        | succ j =>
          simp only [List.getD_cons_succ] at hm ⊢
          simp only [List.length_cons, Nat.succ_lt_succ_iff] at him hiu hix
          simp only [maskWhere, List.getD_cons_succ]
          exact ih us xs j him hiu hix hm

theorem aggregated_length (L : EGNNLayer) (h : List (List ℚ))
    (edges : List (ℕ × ℕ)) (dists : List (List ℚ)) :
    (L.aggregated h edges dists).length = h.length := by
  simp [EGNNLayer.aggregated, aggregateByDest]

theorem updateTensors_length_some (L : EGNNLayer) (aggrOut h : List (List ℚ))
    (m : List Bool) (hL : L.mask = some m) :
    (L.updateTensors aggrOut h).length =
      min m.length (min (min h.length aggrOut.length) h.length) := by
  simp [EGNNLayer.updateTensors, hL, maskWhere_length, List.length_zipWith]

theorem updateTensors_getD_masked (L : EGNNLayer) (aggrOut h : List (List ℚ))
    (m : List Bool) (i : ℕ) (hL : L.mask = some m)
    (ha : h.length ≤ aggrOut.length) (him : i < m.length) (hih : i < h.length)
    (hm : m.getD i true = false) :
    (L.updateTensors aggrOut h).getD i [] = h.getD i [] := by
  simp only [EGNNLayer.updateTensors, hL]
  apply maskWhere_getD_false _ _ _ _ him _ hih hm
  rw [List.length_zipWith]
  omega

theorem forward_fst_getD_masked (L : EGNNLayer) (h : List (List ℚ))
    (edges : List (ℕ × ℕ)) (dists : List (List ℚ)) (m : List Bool) (i : ℕ)
    (him : i < m.length) (hih : i < h.length) (hm : m.getD i true = false) :
    ((L.forward h edges dists (some m)).1).getD i [] = h.getD i [] := by
  simp only [EGNNLayer.forward, EGNNLayer.propagate]
  apply updateTensors_getD_masked _ _ _ m i rfl _ him hih hm
  rw [aggregated_length]

theorem forward_fst_length_masked (L : EGNNLayer) (h : List (List ℚ))
    (edges : List (ℕ × ℕ)) (dists : List (List ℚ)) (m : List Bool) :
    ((L.forward h edges dists (some m)).1).length = min m.length h.length := by
  simp only [EGNNLayer.forward, EGNNLayer.propagate]
  rw [updateTensors_length_some _ _ _ m rfl, aggregated_length]
  omega

theorem layerStep_length_masked (residual : Bool) (L : EGNNLayer)
    (h : List (List ℚ)) (edges : List (ℕ × ℕ)) (dists : List (List ℚ))
    (m : List Bool) (hm : m.length = h.length) :
    (layerStep residual L h edges dists (some m)).length = h.length := by
  cases residual with
  | false =>
    simp only [layerStep, Bool.false_eq_true, if_false]
    rw [forward_fst_length_masked]
    omega
  | true =>
    simp only [layerStep, if_true]
    simp only [matAdd]
    rw [List.length_zipWith, forward_fst_length_masked]
    omega

theorem matAdd_getD (a b : List (List ℚ)) (i : ℕ) (hia : i < a.length)
    (hib : i < b.length) :
    (matAdd a b).getD i [] = vadd (a.getD i []) (b.getD i []) := by
  have hl : i < (matAdd a b).length := by
    simp only [matAdd]; rw [List.length_zipWith]; omega
  rw [List.getD_eq_getElem _ _ hl, List.getD_eq_getElem _ _ hia,
    List.getD_eq_getElem _ _ hib]
  simp only [matAdd]
  rw [List.getElem_zipWith]

theorem layerStep_false_getD_masked (L : EGNNLayer) (h : List (List ℚ))
    (edges : List (ℕ × ℕ)) (dists : List (List ℚ)) (m : List Bool) (i : ℕ)
    (him : i < m.length) (hih : i < h.length) (hm : m.getD i true = false) :
    (layerStep false L h edges dists (some m)).getD i [] = h.getD i [] := by
  simp only [layerStep, Bool.false_eq_true, if_false]
  exact forward_fst_getD_masked L h edges dists m i him hih hm

theorem layerStep_true_getD_masked (L : EGNNLayer) (h : List (List ℚ))
    (edges : List (ℕ × ℕ)) (dists : List (List ℚ)) (m : List Bool) (i : ℕ)
    (him : i < m.length) (hih : i < h.length) (hm : m.getD i true = false) :
    (layerStep true L h edges dists (some m)).getD i [] =
      vadd (h.getD i []) (h.getD i []) := by
  simp only [layerStep, if_true]
  rw [matAdd_getD _ _ _ hih (by rw [forward_fst_length_masked]; omega),
    forward_fst_getD_masked L h edges dists m i him hih hm]

theorem vadd_self (v : List ℚ) : vadd v v = v.map (fun q => q + q) := by
  induction v with
  | nil => rfl
  | cons a t ih =>
    simp only [vadd, List.zipWith_cons_cons, List.map_cons, List.cons.injEq]
    exact ⟨trivial, ih⟩

theorem runLayers_true_getD_masked (convs : List EGNNLayer)
    (h : List (List ℚ)) (edges : List (ℕ × ℕ)) (dists : List (List ℚ))
    (m : List Bool) (i : ℕ) (hml : m.length = h.length) (hih : i < h.length)
    (hm : m.getD i true = false) :
    (runLayers true convs h edges dists (some m)).getD i [] =
      (h.getD i []).map (fun q => 2 ^ convs.length * q) := by
  induction convs generalizing h with
  | nil =>
    simp [runLayers, pow_zero, one_mul]
  | cons L rest ih =>
    have hstep : runLayers true (L :: rest) h edges dists (some m) =
        runLayers true rest (layerStep true L h edges dists (some m)) edges
          dists (some m) := rfl
    rw [hstep]
    have hlen : (layerStep true L h edges dists (some m)).length = h.length :=
      layerStep_length_masked true L h edges dists m hml
    rw [ih (layerStep true L h edges dists (some m)) (by omega) (by omega)]
    rw [layerStep_true_getD_masked L h edges dists m i (by omega) hih hm,
      vadd_self, List.map_map]
    have hfun : ((fun q => (2 : ℚ) ^ rest.length * q) ∘ fun q => q + q) =
        fun q => (2 : ℚ) ^ (L :: rest).length * q := by
      funext q
      simp only [Function.comp_apply, List.length_cons]
      ring
    rw [hfun]

theorem aggregateByDest_getD_no_incoming (numNodes d : ℕ)
    (edges : List (ℕ × ℕ)) (msgs : List (List ℚ)) (i : ℕ)
    (hi : i < numNodes) (hno : ∀ e ∈ edges, e.2 ≠ i) :
    (aggregateByDest numNodes d edges msgs).getD i [] = zeros d := by
  have hl : i < (aggregateByDest numNodes d edges msgs).length := by
    simp [aggregateByDest]; omega
  rw [List.getD_eq_getElem _ _ hl]
  simp only [aggregateByDest, List.getElem_map, List.getElem_range]
  have hfil : (edges.zip msgs).filter (fun p => p.1.2 == i) = [] := by
    rw [List.filter_eq_nil_iff]
    intro p hp
    have hmem := (List.of_mem_zip hp).1
    simpa using hno p.1 hmem
  rw [hfil]
  rfl

theorem sqnorm_vsub_comm (a b : List ℚ) :
    sqnorm (vsub a b) = sqnorm (vsub b a) := by
  induction a generalizing b with
  | nil => cases b <;> simp [vsub, sqnorm]
  | cons x xs ih =>
    cases b with
    | nil => simp [vsub, sqnorm]
    | cons y ys =>
      have h1 : sqnorm (vsub (x :: xs) (y :: ys)) =
          (x - y) * (x - y) + sqnorm (vsub xs ys) := by
        simp [vsub, sqnorm]
      have h2 : sqnorm (vsub (y :: ys) (x :: xs)) =
          (y - x) * (y - x) + sqnorm (vsub ys xs) := by
        simp [vsub, sqnorm]
      rw [h1, h2, ih ys]
      ring

theorem foldl_max_lt (l : List ℕ) (G : ℕ) :
    ∀ a, a < G → (∀ v ∈ l, v < G) → l.foldl Nat.max a < G := by
  induction l with
  | nil => intro a ha _; simpa using ha
  | cons x xs ih =>
    intro a ha hall
    simp only [List.foldl_cons]
    refine ih (Nat.max a x) ?_ (fun v hv => hall v (by simp [hv]))
    exact Nat.max_lt.mpr ⟨ha, hall x (by simp)⟩

theorem le_foldl_max_init (l : List ℕ) : ∀ a, a ≤ l.foldl Nat.max a := by
  induction l with
  | nil => intro a; simp
  | cons x xs ih =>
    intro a
    simp only [List.foldl_cons]
    exact le_trans (Nat.le_max_left a x) (ih _)

theorem mem_le_foldl_max (l : List ℕ) (v : ℕ) :
    ∀ a, v ∈ l → v ≤ l.foldl Nat.max a := by
  induction l with
  | nil => intro a h; simp at h
  | cons x xs ih =>
    intro a h
    rcases List.mem_cons.mp h with h1 | h2
    · subst h1
      simp only [List.foldl_cons]
      exact le_trans (Nat.le_max_right a v) (le_foldl_max_init xs _)
    · exact ih _ h2

theorem numGraphsOf_eq (batch : List ℕ) (G : ℕ) (hG : 0 < G)
    (hlt : ∀ v ∈ batch, v < G) (hmem : G - 1 ∈ batch) :
    numGraphsOf batch = G := by
  unfold numGraphsOf
  have h1 : batch.foldl Nat.max 0 < G := foldl_max_lt batch G 0 hG hlt
  have h2 : G - 1 ≤ batch.foldl Nat.max 0 := mem_le_foldl_max batch (G - 1) 0 hmem
  omega

theorem linear_length (W : List (List ℚ)) (b x : List ℚ) :
    (linear W b x).length = min W.length b.length := by
  simp [linear, List.length_zipWith]

theorem poolGraphs_length (pk : PoolKind) (h : List (List ℚ))
    (batch : List ℕ) : (poolGraphs pk h batch).length = numGraphsOf batch := by
  cases pk <;> simp [poolGraphs]

theorem runLayersSt_fst (residual : Bool) (edges : List (ℕ × ℕ))
    (dists : List (List ℚ)) (mask : Option (List Bool))
    (convs : List EGNNLayer) :
    ∀ h, (runLayersSt residual edges dists mask convs h).1 =
      runLayers residual convs h edges dists mask := by
  induction convs with
  | nil => intro h; rfl
  | cons L rest ih =>
    intro h
    simp only [runLayersSt, runLayers, List.foldl_cons]
    rw [ih]
    rfl

theorem runLayersSt_snd (residual : Bool) (edges : List (ℕ × ℕ))
    (dists : List (List ℚ)) (mask : Option (List Bool))
    (convs : List EGNNLayer) :
    ∀ h, (runLayersSt residual edges dists mask convs h).2 =
      convs.map (fun L => { L with mask := mask }) := by
  induction convs with
  | nil => intro h; rfl
  | cons L rest ih =>
    intro h
    simp only [runLayersSt, List.map_cons]
    rw [ih]
    rfl

/-! ### Concrete fixtures for witnesses and counterexamples -/

/-- A 1-dimensional layer whose update network always outputs `[5]`,
constructed with the default mask `[false]` (node 0 frozen). -/
def testLayer : EGNNLayer :=
  { emb_dim := 1
    act := ActKind.relu
    nrm := NormKind.layer
    aggr := "add"
    mlp_msg := fun _ => [0]
    mlp_upd := fun _ => [5]
    RFF_dim := Option.none
    RFF_sigma := Option.none
    rff := Option.none
    sinF := fun q => q
    cosF := fun q => q
    mask := some [false] }

/-- A depth-1 residual model over `testLayer` with identity-like weights. -/
def testModel1 : EGNN_Full :=
  { depth := 1
    hidden_features := 1
    node_features := 1
    out_features := 1
    embInW := [[1]]
    embInB := [0]
    convs := [testLayer]
    pool := PoolKind.add
    predW1 := [[1]]
    predB1 := [0]
    predW2 := [[1]]
    predB2 := [0]
    residual := true
    mask := some [false] }

/-- A single-node, edge-free batch whose only node is masked off. -/
def testBatch : GraphBatch :=
  { x := [[1]]
    pos := [[0, 0, 0]]
    edgeIndex := []
    batch := [0]
    mask := some [false] }

/-- A two-node batch with one directed edge `0 → 1` and positions at
Euclidean distance 5. -/
def testBatch2 : GraphBatch :=
  { x := [[1], [2]]
    pos := [[0, 0, 0], [3, 4, 0]]
    edgeIndex := [(0, 1)]
    batch := [0, 0]
    mask := Option.none }

/-! ### Claim C2 -/

/-- C2: for an `EGNNLayer.forward` call with a supplied mask and a node `i`
with `mask[i] = false`, the returned embedding at row `i` equals the input
row `i` exactly; moreover the whole output is `torch.where(mask, u, h)`
where `u` is the unmasked result of the update network — the masking is
applied after `mlp_upd` has run, by discarding its result for that node. -/
theorem c2_layer_mask_passthrough (L : EGNNLayer) (h : List (List ℚ))
    (edges : List (ℕ × ℕ)) (dists : List (List ℚ)) (m : List Bool) (i : ℕ)
    (him : i < m.length) (hih : i < h.length) (hm : m.getD i true = false) :
    ((L.forward h edges dists (some m)).1).getD i [] = h.getD i [] ∧
    (L.forward h edges dists (some m)).1 =
      maskWhere m ((L.forward h edges dists Option.none).1) h := by
  exact ⟨forward_fst_getD_masked L h edges dists m i him hih hm, rfl⟩

/-- C2 witness: `c2_layer_mask_passthrough` at `testLayer`, `h = [[1]]`,
mask `[false]`, node 0. -/
theorem c2_layer_mask_passthrough_witness :
    ((0 : ℕ) < List.length [false] ∧ (0 : ℕ) < List.length [([1] : List ℚ)] ∧
      [false].getD 0 true = false) ∧
    ((testLayer.forward [[1]] [] [] (some [false])).1.getD 0 [] =
        ([[1]] : List (List ℚ)).getD 0 [] ∧
      (testLayer.forward [[1]] [] [] (some [false])).1 =
        maskWhere [false] ((testLayer.forward [[1]] [] [] Option.none).1)
          [[1]]) :=
  ⟨⟨by decide, by decide, by decide⟩,
    c2_layer_mask_passthrough testLayer [[1]] [] [] [false] 0 (by decide)
      (by decide) (by decide)⟩

/-! ### Claim C1 -/

/-- C1 counterexample: the claim fails in residual mode. `testModel1` is
residual with a single layer, `testBatch` masks off its single node 0, yet
after the layer step the node's embedding is `[2]`, not its pre-step value
`[1]`: the residual connection adds the passed-through embedding back onto
itself, so the masked node is not frozen. -/
theorem c1_counterexample :
    testModel1.residual = true ∧
    testBatch.mask = some [false] ∧
    [false].getD 0 true = false ∧
    (testModel1.hidden (fun q => q) testBatch).getD 0 [] ≠
      (testBatch.x.map (linear testModel1.embInW testModel1.embInB)).getD 0
        [] := by
  refine ⟨rfl, rfl, by decide, ?_⟩
  have hL : testModel1.hidden (fun q => q) testBatch = [[2]] := by
    simp only [testModel1, testBatch, testLayer, EGNN_Full.hidden, runLayers,
      List.foldl_cons, List.foldl_nil, layerStep, EGNNLayer.forward,
      EGNNLayer.propagate, EGNNLayer.updateTensors, EGNNLayer.aggregated,
      EGNNLayer.messages, aggregateByDest, zeros, computeDistances, matAdd,
      List.map_cons, List.map_nil, linear]
    norm_num [maskWhere, List.zipWith, vadd, dot]
  have hR : (testBatch.x.map (linear testModel1.embInW testModel1.embInB)) =
      [[1]] := by
    simp only [testModel1, testBatch, List.map_cons, List.map_nil, linear]
    norm_num [List.zipWith, dot]
  rw [hL, hR]
  norm_num

/-- C1 (amended): for a layer step on a batch mask with `mask[i] = false`,
the node's embedding after the step equals its pre-step embedding in
non-residual mode; in residual mode it instead equals twice the pre-step
embedding (the passed-through update is added back on), so the embedding is
frozen only when residual mode is disabled. -/
theorem c1_masked_layer_step (L : EGNNLayer) (h : List (List ℚ))
    (edges : List (ℕ × ℕ)) (dists : List (List ℚ)) (m : List Bool) (i : ℕ)
    (him : i < m.length) (hih : i < h.length) (hm : m.getD i true = false) :
    (layerStep false L h edges dists (some m)).getD i [] = h.getD i [] ∧
    (layerStep true L h edges dists (some m)).getD i [] =
      (h.getD i []).map (fun q => q + q) := by
  refine ⟨layerStep_false_getD_masked L h edges dists m i him hih hm, ?_⟩
  rw [layerStep_true_getD_masked L h edges dists m i him hih hm, vadd_self]

/-- C1 witness: `c1_masked_layer_step` at `testLayer`, `h = [[1]]`, mask
`[false]`, node 0. -/
theorem c1_masked_layer_step_witness :
    ((0 : ℕ) < List.length [false] ∧ (0 : ℕ) < List.length [([1] : List ℚ)] ∧
      [false].getD 0 true = false) ∧
    ((layerStep false testLayer [[1]] [] [] (some [false])).getD 0 [] =
        ([[1]] : List (List ℚ)).getD 0 [] ∧
      (layerStep true testLayer [[1]] [] [] (some [false])).getD 0 [] =
        (([[1]] : List (List ℚ)).getD 0 []).map (fun q => q + q)) :=
  ⟨⟨by decide, by decide, by decide⟩,
    c1_masked_layer_step testLayer [[1]] [] [] [false] 0 (by decide)
      (by decide) (by decide)⟩

/-! ### Claim C10 -/

/-- C10: in residual mode with a batch mask, a node `i` with
`mask[i] = false` has its embedding doubled by every layer step (the layer
passes the embedding through and the residual adds it back), so after all
layers the node's embedding is `2 ^ (number of layers)` times its initial
embedding `emb_in(x)[i]`. -/
theorem c10_residual_masked_doubling (mdl : EGNN_Full) (sqrtF : ℚ → ℚ)
    (b : GraphBatch) (mm : List Bool) (i : ℕ)
    (hres : mdl.residual = true) (hmask : b.mask = some mm)
    (hml : mm.length = b.x.length) (hih : i < b.x.length)
    (hm : mm.getD i true = false) :
    (mdl.hidden sqrtF b).getD i [] =
      ((b.x.map (linear mdl.embInW mdl.embInB)).getD i []).map
        (fun q => 2 ^ mdl.convs.length * q) := by
  unfold EGNN_Full.hidden
  rw [hres, hmask]
  exact runLayers_true_getD_masked mdl.convs _ b.edgeIndex _ mm i
    (by simpa using hml) (by simpa using hih) hm

/-- C10 witness: `c10_residual_masked_doubling` at `testModel1` (one
residual layer) and `testBatch` (single masked-off node): `[1]` becomes
`[2 ^ 1 * 1]`. -/
theorem c10_residual_masked_doubling_witness :
    (testModel1.residual = true ∧ testBatch.mask = some [false] ∧
      List.length [false] = testBatch.x.length ∧ (0 : ℕ) < testBatch.x.length ∧
      [false].getD 0 true = false) ∧
    (testModel1.hidden (fun q => q) testBatch).getD 0 [] =
      ((testBatch.x.map (linear testModel1.embInW testModel1.embInB)).getD 0
          []).map (fun q => 2 ^ testModel1.convs.length * q) :=
  ⟨⟨rfl, rfl, by decide, by decide, by decide⟩,
    c10_residual_masked_doubling testModel1 (fun q => q) testBatch [false] 0
      rfl rfl (by decide) (by decide) (by decide)⟩

/-! ### Claim C3 -/

/-- C3 counterexample: `testLayer` is constructed with the default mask
`[false]` (node 0 frozen), yet calling `forward` with `mask = None` on
`h = [[1]]` returns `[5]` at node 0 — the update network's output, not the
frozen input row `[1]`. The construction-time default mask is not used:
`forward` overwrites the stored mask with the per-call `None` before the
update step runs. -/
theorem c3_counterexample :
    testLayer.mask = some [false] ∧
    (testLayer.forward [[1]] [] [] Option.none).1.getD 0 [] ≠
      ([[1]] : List (List ℚ)).getD 0 [] := by
  refine ⟨rfl, ?_⟩
  have hL : (testLayer.forward [[1]] [] [] Option.none).1 = [[5]] := by
    simp only [testLayer, EGNNLayer.forward, EGNNLayer.propagate,
      EGNNLayer.updateTensors, EGNNLayer.aggregated, EGNNLayer.messages,
      aggregateByDest, zeros]
    norm_num [List.zipWith]
  rw [hL]
  norm_num

/-- C3 (amended): a per-call mask always replaces the stored mask, even
when it is `None`: the layer's output never depends on the
construction-time stored mask, and a call with `mask = None` applies no
masking at all — it returns the raw rowwise update
`mlp_upd(cat(h, aggregated))` for every node. -/
theorem c3_stored_mask_ignored (L : EGNNLayer) (h : List (List ℚ))
    (edges : List (ℕ × ℕ)) (dists : List (List ℚ))
    (mk m0 m1 : Option (List Bool)) :
    (({ L with mask := m0 } : EGNNLayer).forward h edges dists mk).1 =
      (({ L with mask := m1 } : EGNNLayer).forward h edges dists mk).1 ∧
    (L.forward h edges dists Option.none).1 =
      List.zipWith (fun hi a => L.mlp_upd (hi ++ a)) h
        (L.aggregated h edges dists) := by
  exact ⟨rfl, rfl⟩

/-! ### Claim C9 -/

/-- C9 counterexample: a forward call does mutate object state. `testLayer`
stores mask `some [false]`; after `forward` with per-call mask `None` the
stored mask attribute is `None`, not its pre-call value. -/
theorem c9_counterexample :
    testLayer.mask = some [false] ∧
    (testLayer.forward [[1]] [] [] Option.none).2.mask ≠ testLayer.mask := by
  exact ⟨rfl, by decide⟩

/-- C9 (amended): a forward call on an `EGNNLayer` mutates exactly one
attribute — the stored mask, which is overwritten with the per-call mask
argument; every other attribute (dimensions, configuration, the parameter
networks `mlp_msg`/`mlp_upd`, the RFF sub-module) is unchanged. At the
model level, a forward call computes the same prediction as the stateless
pipeline and changes nothing of the model's own attributes (including its
parameter tensors and its own stored default mask) except that each layer
object's stored mask becomes the batch mask. -/
theorem c9_forward_frame :
    (∀ (L : EGNNLayer) (h : List (List ℚ)) (edges : List (ℕ × ℕ))
        (dists : List (List ℚ)) (mk : Option (List Bool)),
      (L.forward h edges dists mk).2.emb_dim = L.emb_dim ∧
      (L.forward h edges dists mk).2.act = L.act ∧
      (L.forward h edges dists mk).2.nrm = L.nrm ∧
      (L.forward h edges dists mk).2.aggr = L.aggr ∧
      (L.forward h edges dists mk).2.mlp_msg = L.mlp_msg ∧
      (L.forward h edges dists mk).2.mlp_upd = L.mlp_upd ∧
      (L.forward h edges dists mk).2.RFF_dim = L.RFF_dim ∧
      (L.forward h edges dists mk).2.RFF_sigma = L.RFF_sigma ∧
      (L.forward h edges dists mk).2.rff = L.rff ∧
      (L.forward h edges dists mk).2.sinF = L.sinF ∧
      (L.forward h edges dists mk).2.cosF = L.cosF ∧
      (L.forward h edges dists mk).2.mask = mk) ∧
    (∀ (m : EGNN_Full) (sqrtF : ℚ → ℚ) (b : GraphBatch),
      (m.forwardSt sqrtF b).1 = m.forward sqrtF b ∧
      (m.forwardSt sqrtF b).2.depth = m.depth ∧
      (m.forwardSt sqrtF b).2.hidden_features = m.hidden_features ∧
      (m.forwardSt sqrtF b).2.node_features = m.node_features ∧
      (m.forwardSt sqrtF b).2.out_features = m.out_features ∧
      (m.forwardSt sqrtF b).2.embInW = m.embInW ∧
      (m.forwardSt sqrtF b).2.embInB = m.embInB ∧
      (m.forwardSt sqrtF b).2.pool = m.pool ∧
      (m.forwardSt sqrtF b).2.predW1 = m.predW1 ∧
      (m.forwardSt sqrtF b).2.predB1 = m.predB1 ∧
      (m.forwardSt sqrtF b).2.predW2 = m.predW2 ∧
      (m.forwardSt sqrtF b).2.predB2 = m.predB2 ∧
      (m.forwardSt sqrtF b).2.residual = m.residual ∧
      (m.forwardSt sqrtF b).2.mask = m.mask ∧
      (m.forwardSt sqrtF b).2.convs =
        m.convs.map (fun L => { L with mask := b.mask })) := by
  constructor
  · intro L h edges dists mk
    exact ⟨rfl, rfl, rfl, rfl, rfl, rfl, rfl, rfl, rfl, rfl, rfl, rfl⟩
  · intro m sqrtF b
    refine ⟨?_, rfl, rfl, rfl, rfl, rfl, rfl, rfl, rfl, rfl, rfl, rfl, rfl,
      rfl, ?_⟩
    · simp only [EGNN_Full.forwardSt, EGNN_Full.forward, EGNN_Full.hidden]
      rw [runLayersSt_fst]
    · simp only [EGNN_Full.forwardSt]
      rw [runLayersSt_snd]

/-! ### Claim C4 -/

/-- C4: `RFF.forward` returns the concatenation of `sin(x·Bᵗ)` and
`cos(x·Bᵗ)` truncated (by dropping the last column) exactly when
`out_features` is odd — i.e. the first `out_features` entries of the
concatenation — its output width is exactly `out_features` for both odd
and even `out_features`, and the projection `B` has `⌈out_features/2⌉`
rows. -/
theorem c4_rff_width (inF outF : ℕ) (sigma : ℚ) (randn : ℕ → ℕ → ℚ)
    (invSqrt2 : ℚ) (sinF cosF : ℚ → ℚ) (x : List ℚ) :
    ((RFFmod.make inF outF sigma randn invSqrt2).forward sinF cosF x).length =
      outF ∧
    (RFFmod.make inF outF sigma randn invSqrt2).B.length = (outF + 1) / 2 ∧
    (RFFmod.make inF outF sigma randn invSqrt2).forward sinF cosF x =
      List.take outF
        ((matvec (RFFmod.make inF outF sigma randn invSqrt2).B x).map sinF ++
          (matvec (RFFmod.make inF outF sigma randn invSqrt2).B x).map
            cosF) := by
  have hB : (RFFmod.make inF outF sigma randn invSqrt2).B.length =
      outF / 2 + (if outF % 2 ≠ 0 then 1 else 0) := by
    simp [RFFmod.make, mkMatrix]
  have hcomp : (RFFmod.make inF outF sigma randn invSqrt2).compensation =
      (if outF % 2 ≠ 0 then 1 else 0) := rfl
  have hcat : ((matvec (RFFmod.make inF outF sigma randn invSqrt2).B x).map
        sinF ++
      (matvec (RFFmod.make inF outF sigma randn invSqrt2).B x).map
        cosF).length =
      2 * (outF / 2 + (if outF % 2 ≠ 0 then 1 else 0)) := by
    simp [matvec, hB]
    omega
  by_cases hpar : outF % 2 = 0
  · have hc0 : (RFFmod.make inF outF sigma randn invSqrt2).compensation = 0 := by
      rw [hcomp]; simp [hpar]
    have hlen : ((matvec (RFFmod.make inF outF sigma randn invSqrt2).B x).map
          sinF ++
        (matvec (RFFmod.make inF outF sigma randn invSqrt2).B x).map
          cosF).length = outF := by
      rw [hcat]; simp [hpar]; omega
    have hfwd : (RFFmod.make inF outF sigma randn invSqrt2).forward sinF cosF
        x =
        (matvec (RFFmod.make inF outF sigma randn invSqrt2).B x).map sinF ++
          (matvec (RFFmod.make inF outF sigma randn invSqrt2).B x).map
            cosF := by
      simp [RFFmod.forward, hc0]
    refine ⟨by rw [hfwd, hlen], by rw [hB]; simp [hpar]; omega, ?_⟩
    rw [hfwd, List.take_of_length_le (le_of_eq hlen)]
  · have hc1 : (RFFmod.make inF outF sigma randn invSqrt2).compensation = 1 := by
      rw [hcomp]; simp [hpar]
    have hlen : ((matvec (RFFmod.make inF outF sigma randn invSqrt2).B x).map
          sinF ++
        (matvec (RFFmod.make inF outF sigma randn invSqrt2).B x).map
          cosF).length = outF + 1 := by
      rw [hcat]; simp [hpar]; omega
    have hfwd : (RFFmod.make inF outF sigma randn invSqrt2).forward sinF cosF
        x =
        ((matvec (RFFmod.make inF outF sigma randn invSqrt2).B x).map sinF ++
          (matvec (RFFmod.make inF outF sigma randn invSqrt2).B x).map
            cosF).dropLast := by
      simp [RFFmod.forward, hc1]
    refine ⟨?_, by rw [hB]; simp [hpar]; omega, ?_⟩
    · rw [hfwd, List.length_dropLast, hlen]
      omega
    · rw [hfwd, List.dropLast_eq_take, hlen]
      simp

/-! ### Claim C5 -/

/-- C5: in a layer call, a destination node `i` with no incoming edge (no
edge whose destination/`col` entry is `i`) receives the all-zeros vector of
length `emb_dim` as its aggregated message — the row of the aggregated
tensor fed into the update network. -/
theorem c5_no_incoming_aggregates_zero (L : EGNNLayer) (h : List (List ℚ))
    (edges : List (ℕ × ℕ)) (dists : List (List ℚ)) (i : ℕ)
    (hih : i < h.length) (hno : ∀ e ∈ edges, e.2 ≠ i) :
    (L.aggregated h edges dists).getD i [] = List.replicate L.emb_dim 0 := by
  unfold EGNNLayer.aggregated
  rw [aggregateByDest_getD_no_incoming h.length L.emb_dim edges
    (L.messages h edges dists) i hih hno]
  rfl

/-- C5 witness: `c5_no_incoming_aggregates_zero` on a two-node graph with
the single edge `(0, 1)`: node 0 has no incoming edge and aggregates to
`[0]`. -/
theorem c5_no_incoming_aggregates_zero_witness :
    ((0 : ℕ) < List.length [([1] : List ℚ), [2]] ∧
      ∀ e ∈ [((0 : ℕ), (1 : ℕ))], e.2 ≠ 0) ∧
    (testLayer.aggregated [[1], [2]] [(0, 1)] [[5]]).getD 0 [] =
      List.replicate testLayer.emb_dim 0 :=
  ⟨⟨by decide, by decide⟩,
    c5_no_incoming_aggregates_zero testLayer [[1], [2]] [(0, 1)] [[5]] 0
      (by decide) (by decide)⟩

/-! ### Claim C6 -/

/-- C6: the per-edge distance tensor is computed once, before the layer
loop, its entry for edge `k` being the Euclidean norm of the position
difference between the edge's destination and source nodes (the code's
`pos[row] - pos[col]` gives the same norm by symmetry); `EGNN_Full`'s
layer loop threads this one tensor unchanged into every layer step — each
recursive step of the loop receives the very same precomputed tensor, and
no layer recomputes it from positions. -/
theorem c6_distances_once (mdl : EGNN_Full) (sqrtF : ℚ → ℚ) (b : GraphBatch)
    (k : ℕ) (hk : k < b.edgeIndex.length) :
    (computeDistances sqrtF b.pos b.edgeIndex).getD k [] =
      [euclid sqrtF
        (vsub (b.pos.getD (b.edgeIndex.getD k (0, 0)).2 [])
          (b.pos.getD (b.edgeIndex.getD k (0, 0)).1 []))] ∧
    mdl.hidden sqrtF b =
      runLayers mdl.residual mdl.convs
        (b.x.map (linear mdl.embInW mdl.embInB)) b.edgeIndex
        (computeDistances sqrtF b.pos b.edgeIndex) b.mask ∧
    (∀ L rest h2,
      runLayers mdl.residual (L :: rest) h2 b.edgeIndex
          (computeDistances sqrtF b.pos b.edgeIndex) b.mask =
        runLayers mdl.residual rest
          (layerStep mdl.residual L h2 b.edgeIndex
            (computeDistances sqrtF b.pos b.edgeIndex) b.mask)
          b.edgeIndex (computeDistances sqrtF b.pos b.edgeIndex) b.mask) := by
  refine ⟨?_, rfl, fun L rest h2 => rfl⟩
  have hl : k < (computeDistances sqrtF b.pos b.edgeIndex).length := by
    simp [computeDistances]
    omega
  rw [List.getD_eq_getElem _ _ hl, List.getD_eq_getElem _ _ hk]
  simp only [computeDistances, List.getElem_map, euclid, List.cons.injEq,
    and_true]
  rw [sqnorm_vsub_comm]

/-- C6 witness: `c6_distances_once` on `testBatch2`, whose single edge
joins positions `(0,0,0)` and `(3,4,0)`: the distance row is
`[sqrt 25]`. -/
theorem c6_distances_once_witness :
    (0 : ℕ) < testBatch2.edgeIndex.length ∧
    ((computeDistances (fun q => q) testBatch2.pos testBatch2.edgeIndex).getD
        0 [] =
      [euclid (fun q => q)
        (vsub (testBatch2.pos.getD (testBatch2.edgeIndex.getD 0 (0, 0)).2 [])
          (testBatch2.pos.getD (testBatch2.edgeIndex.getD 0 (0, 0)).1 []))] ∧
      testModel1.hidden (fun q => q) testBatch2 =
        runLayers testModel1.residual testModel1.convs
          (testBatch2.x.map (linear testModel1.embInW testModel1.embInB))
          testBatch2.edgeIndex
          (computeDistances (fun q => q) testBatch2.pos testBatch2.edgeIndex)
          testBatch2.mask ∧
      (∀ L rest h2,
        runLayers testModel1.residual (L :: rest) h2 testBatch2.edgeIndex
            (computeDistances (fun q => q) testBatch2.pos testBatch2.edgeIndex)
            testBatch2.mask =
          runLayers testModel1.residual rest
            (layerStep testModel1.residual L h2 testBatch2.edgeIndex
              (computeDistances (fun q => q) testBatch2.pos
                testBatch2.edgeIndex)
              testBatch2.mask)
            testBatch2.edgeIndex
            (computeDistances (fun q => q) testBatch2.pos testBatch2.edgeIndex)
            testBatch2.mask)) :=
  ⟨by decide,
    c6_distances_once testModel1 (fun q => q) testBatch2 0 (by decide)⟩

/-! ### Claim C7 -/

/-- C7: on a well-formed batch whose graph ids are a contiguous 0-based
partition into `G` graphs, `EGNN_Full.forward` — which pools the final
node embeddings per graph and applies the head
`Linear → ReLU → Linear` to each pooled row — returns `G` rows, each of
width `out_features` (the head's final linear layer having `out_features`
output rows, as `Linear(hidden, out)` builds them). -/
theorem c7_output_shape (mdl : EGNN_Full) (sqrtF : ℚ → ℚ) (b : GraphBatch)
    (G : ℕ) (hG : 0 < G)
    (hW2 : mdl.predW2.length = mdl.out_features)
    (hB2 : mdl.predB2.length = mdl.out_features)
    (hlt : ∀ v ∈ b.batch, v < G) (hsur : ∀ g, g < G → g ∈ b.batch) :
    (mdl.forward sqrtF b).length = G ∧
    (∀ r ∈ mdl.forward sqrtF b, r.length = mdl.out_features) := by
  have hnum : numGraphsOf b.batch = G :=
    numGraphsOf_eq b.batch G hG hlt (hsur (G - 1) (by omega))
  constructor
  · simp only [EGNN_Full.forward, List.length_map]
    rw [poolGraphs_length, hnum]
  · intro r hr
    simp only [EGNN_Full.forward, List.mem_map] at hr
    obtain ⟨v, _, hrfl⟩ := hr
    rw [← hrfl]
    simp only [EGNN_Full.predHead]
    rw [linear_length, hW2, hB2]
    omega

/-- C7 witness: `c7_output_shape` on `testModel1` and `testBatch`
(one graph, `out_features = 1`). -/
theorem c7_output_shape_witness :
    ((0 : ℕ) < 1 ∧ testModel1.predW2.length = testModel1.out_features ∧
      testModel1.predB2.length = testModel1.out_features ∧
      (∀ v ∈ testBatch.batch, v < 1) ∧
      (∀ g, g < 1 → g ∈ testBatch.batch)) ∧
    ((testModel1.forward (fun q => q) testBatch).length = 1 ∧
      ∀ r ∈ testModel1.forward (fun q => q) testBatch,
        r.length = testModel1.out_features) :=
  ⟨⟨by decide, by decide, by decide, by decide, by decide⟩,
    c7_output_shape testModel1 (fun q => q) testBatch 1 (by decide)
      (by decide) (by decide) (by decide) (by decide)⟩

/-! ### Claim C8 -/

theorem activationOf_isSome (s : String) :
    (activationOf s).isSome = true ↔ (s = "relu" ∨ s = "swish") := by
  unfold activationOf
  split
  · simp [*]
  · split
    · simp [*]
    · simp [*]

theorem normOf_isSome (s : String) :
    (normOf s).isSome = true ↔ (s = "layer" ∨ s = "batch" ∨ s = "none") := by
  unfold normOf
  split
  · simp [*]
  · split
    · simp [*]
    · split
      · simp [*]
      · simp [*]

theorem poolOf_isSome (s : String) :
    (poolOf s).isSome = true ↔ (s = "mean" ∨ s = "add") := by
  unfold poolOf
  split
  · simp [*]
  · split
    · simp [*]
    · simp [*]

theorem egnnLayer_make_isSome (ed : ℕ) (act nrm ag : String)
    (RD : Option ℕ) (RS : Option ℚ) (mk : Option (List Bool))
    (mn un : List ℚ → List ℚ) (rd : ℕ → ℕ → ℚ) (sf cf : ℚ → ℚ) (is2 : ℚ) :
    (EGNNLayer.make ed act nrm ag RD RS mk mn un rd sf cf is2).isSome =
      true ↔
    ((activationOf act).isSome = true ∧ (normOf nrm).isSome = true ∧
      (RD = Option.none ∨ RS.isSome = true)) := by
  unfold EGNNLayer.make RFFmod.tryMake
  cases activationOf act <;> cases normOf nrm <;> cases RD <;> cases RS <;>
    simp

theorem seqOption_isSome_iff {β : Type} (l : List (Option β)) :
    (seqOption l).isSome = true ↔ ∀ o ∈ l, o.isSome = true := by
  induction l with
  | nil => simp [seqOption]
  | cons o os ih =>
    cases o with
    | none => simp [seqOption]
    | some b => simp [seqOption, ih]

/-- C8 counterexample: with both names valid (`activation = "relu"`,
`norm = "layer"`) but `RFF_dim` supplied and `RFF_sigma` absent, layer
construction still fails — in the source, `RFF(1, RFF_dim, None)` raises a
`TypeError` at `B = torch.randn(...) * sigma` — refuting "succeeds for
every name inside those sets". -/
theorem c8_counterexample :
    activationOf "relu" = some ActKind.relu ∧
    normOf "layer" = some NormKind.layer ∧
    (EGNNLayer.make 1 "relu" "layer" "add" (some 4) Option.none
        (some [false]) (fun _ => [0]) (fun _ => [5]) (fun _ _ => 0)
        (fun q => q) (fun q => q) 1).isSome = false := by
  refine ⟨by decide, by decide, rfl⟩

/-- C8 (amended): constructing an `EGNNLayer` succeeds precisely when the
activation name is in `{relu, swish}`, the norm name is in
`{layer, batch, none}`, and the RFF configuration is consistent (`RFF_dim`
unset, or `RFF_sigma` supplied — with `RFF_dim` set and `RFF_sigma` `None`
the `RFF` sub-module's `randn * None` raises a `TypeError` even for valid
names); names outside the sets fail the dictionary lookup. With valid
layer names, constructing an `EGNN_Full` succeeds precisely when the pool
name is in `{mean, add}` and, if any layer is built (`depth > 0`), its RFF
configuration is consistent. -/
theorem c8_construction_lookup :
    (∀ (ed : ℕ) (act nrm : String) (RD : Option ℕ) (RS : Option ℚ)
        (mk : Option (List Bool)) (mn un : List ℚ → List ℚ)
        (rd : ℕ → ℕ → ℚ) (sf cf : ℚ → ℚ) (is2 : ℚ),
      (EGNNLayer.make ed act nrm "add" RD RS mk mn un rd sf cf is2).isSome =
          true ↔
        ((act = "relu" ∨ act = "swish") ∧
          (nrm = "layer" ∨ nrm = "batch" ∨ nrm = "none") ∧
          (RD = Option.none ∨ RS.isSome = true))) ∧
    (∀ (depth hidden node out : ℕ) (pool : String) (residual : Bool)
        (RD : Option ℕ) (RS : Option ℚ) (mk : Option (List Bool))
        (init : EGNNInit) (sf cf : ℚ → ℚ) (is2 : ℚ),
      (EGNN_Full.make depth hidden node out "relu" "layer" "add" pool
          residual RD RS mk init sf cf is2).isSome = true ↔
        ((pool = "mean" ∨ pool = "add") ∧
          (depth = 0 ∨ RD = Option.none ∨ RS.isSome = true))) := by
  constructor
  · intro ed act nrm RD RS mk mn un rd sf cf is2
    rw [egnnLayer_make_isSome, activationOf_isSome, normOf_isSome]
  · intro depth hidden node out pool residual RD RS mk init sf cf is2
    have hlayer : ∀ k : ℕ,
        (EGNNLayer.make hidden "relu" "layer" "add" RD RS mk (init.msgNet k)
            (init.updNet k) (init.rffDraw k) sf cf is2).isSome = true ↔
          (RD = Option.none ∨ RS.isSome = true) := by
      intro k
      rw [egnnLayer_make_isSome, activationOf_isSome, normOf_isSome]
      simp
    have hseq : (seqOption ((List.range depth).map
        (fun k => EGNNLayer.make hidden "relu" "layer" "add" RD RS mk
          (init.msgNet k) (init.updNet k) (init.rffDraw k) sf cf
          is2))).isSome = true ↔
        (depth = 0 ∨ RD = Option.none ∨ RS.isSome = true) := by
      rw [seqOption_isSome_iff]
      constructor
      · intro hall
        rcases Nat.eq_zero_or_pos depth with hd | hd
        · exact Or.inl hd
        · refine Or.inr ?_
          have h0 : (0 : ℕ) ∈ List.range depth := by
            simp only [List.mem_range]
            omega
          exact (hlayer 0).mp (hall _ (List.mem_map_of_mem _ h0))
      · intro hcases o ho
        simp only [List.mem_map] at ho
        obtain ⟨k, hk, hko⟩ := ho
        rcases hcases with hd | hwf
        · subst hd
          simp at hk
        · rw [← hko]
          exact (hlayer k).mpr hwf
    have hpool := poolOf_isSome pool
    unfold EGNN_Full.make
    rcases hS : seqOption ((List.range depth).map
        (fun k => EGNNLayer.make hidden "relu" "layer" "add" RD RS mk
          (init.msgNet k) (init.updNet k) (init.rffDraw k) sf cf is2)) with
      _ | convs
    · rw [hS] at hseq
      simp at hseq
      rcases hP : poolOf pool with _ | pk <;> simp [hseq]
    · rw [hS] at hseq
      simp at hseq
      rcases hP : poolOf pool with _ | pk
      · rw [hP] at hpool
        simp at hpool
        simp [hpool]
      · rw [hP] at hpool
        simp at hpool
        simp [hpool, hseq]
